import Mathlib

/-
Verification development for the staircase-grid path counter (src/main.py).

The program reads a rectangular character grid, collects the marker cells
('X') by scanning rows from the last one to the first (descending y) and
within a row left to right (ascending x), checks whether the markers form a
decomposable staircase (`Grid.is_possible`), and if so multiplies the number
of monotone lattice paths between each consecutive marker pair
(`Grid.paths_count`, `Subgrid._move`).

The embedding below is a direct shallow translation of that code:
  * `pointsOf`        - the marker scan of `Grid.__init__`
  * `nothingBefore`   - `Grid._nothing_before`
  * `mutuallyExclusiveRowCol` - `Grid._mutually_exclusive_row_col`
    (note: the Python code tests `"X" in cols` on a *list of strings*, which
    is list membership, i.e. whether some whole column string equals "X"; the
    embedding reproduces that with `List.contains`)
  * `getNearest`      - `Grid._get_nearest` (the Python code minimises the
    Euclidean distance `sqrt(dx^2+dy^2)`; the embedding minimises the exact
    squared distance, which has the same minimisers and the same ties)
  * `didMissPoints`   - `Grid._did_miss_points`, written with explicit fuel;
    `.missed` models `return True`, `.completed` models `return False`,
    `.logicError` models the `raise RuntimeError` branch and `.outOfFuel` is
    the fuel sentinel (the Python recursion has no such case)
  * `isPossible`      - `Grid.is_possible` (`some false` = invalid layout,
    `some true` = valid, `none` = the walk raised / is undefined)
  * `subgridFromPoints` - `Subgrid.from_points`
  * `move`            - `Subgrid._move`; the Python code threads one mutable
    `recording_path` list through all branches, which corrupts the *contents*
    of the recorded paths but not the list *structure*: the leaf count and
    hence `len(...)`, the only thing `paths_count` consumes, are unchanged.
    The embedding passes the path snapshot immutably.
  * `pathsCount`      - `Grid.paths_count`; `.invalid` is the `None` sentinel
    for an undecomposable layout, `.error` models an uncaught exception
    (failed `assert len(self.points) == 2` or the internal RuntimeError).
-/

namespace MainPy

structure Point where
  x : Nat
  y : Nat
deriving DecidableEq

abbrev CharGrid := List (List Char)

def width (g : CharGrid) : Nat := (g.headD []).length

def cell (g : CharGrid) (x y : Nat) : Char := (g.getD y []).getD x '.'

def wfGrid (g : CharGrid) : Prop := g ≠ [] ∧ ∀ row ∈ g, row.length = width g

instance (g : CharGrid) : Decidable (wfGrid g) :=
  inferInstanceAs (Decidable (g ≠ [] ∧ ∀ row ∈ g, row.length = width g))

def rowMarkers (g : CharGrid) (y : Nat) : List Point :=
  (List.range (width g)).filterMap
    (fun x => if cell g x y = 'X' then some ⟨x, y⟩ else none)

def pointsOf (g : CharGrid) : List Point :=
  ((List.range g.length).reverse).flatMap (fun y => rowMarkers g y)

def colsOf (g : CharGrid) : List (List Char) :=
  (List.range (width g)).map (fun i => g.map (fun row => row.getD i ' '))

def removeAt (l : List (List Char)) (i : Nat) : List (List Char) :=
  l.take i ++ l.drop (i + 1)

def nothingBefore (points visited : List Point) (x y : Nat) : Bool :=
  points.all (fun p =>
    decide (p ∈ visited) || (decide (x ≤ p.x) && decide (p.y ≤ y)))

def mutuallyExclusiveRowCol (g : CharGrid) (x y : Nat) : Bool :=
  !((removeAt (colsOf g) x).contains ['X'] && (removeAt g y).contains ['X'])

def validPoints (points : List Point) (x y : Nat) : List Point :=
  points.filter (fun p =>
    decide (x ≤ p.x) && decide (p.y ≤ y) && !(decide (p.x = x) && decide (p.y = y)))

def distSq (x y : Nat) (p : Point) : Int :=
  ((x : Int) - p.x) * ((x : Int) - p.x) + ((y : Int) - p.y) * ((y : Int) - p.y)

def argminFirst (f : Point → Int) : List Point → Option Point
  | [] => none
  | p :: ps =>
    match argminFirst f ps with
    | none => some p
    | some q => if f p ≤ f q then some p else some q

def getNearest (points : List Point) (x y : Nat) : Option Point :=
  argminFirst (distSq x y) (validPoints points x y)

inductive WalkOutcome
  | missed
  | completed
  | logicError
  | outOfFuel
deriving DecidableEq

def unvisitedCount (points visited : List Point) : Nat :=
  (points.dedup.filter (fun p => !(decide (p ∈ visited)))).length

def didMissPoints (g : CharGrid) (points : List Point) :
    Nat → List Point → Nat → Nat → WalkOutcome
  | 0, _, _, _ => .outOfFuel
  | fuel + 1, visited, x, y =>
    let visited' := visited.insert ⟨x, y⟩
    if !(nothingBefore points visited' x y && mutuallyExclusiveRowCol g x y) then
      .missed
    else
      match getNearest points x y with
      | none =>
        if 0 < unvisitedCount points visited' then .missed else .completed
      | some n =>
        if 0 < unvisitedCount points visited' then
          didMissPoints g points fuel visited' n.x n.y
        else
          .logicError

def isPossible (g : CharGrid) : Option Bool :=
  match pointsOf g with
  | [] => none
  | p :: _ =>
    match didMissPoints g (pointsOf g) ((pointsOf g).dedup.length + 1) [] p.x p.y with
    | .missed => some false
    | .completed => some true
    | _ => none

def sliceRow (row : List Char) (x1 x2 : Nat) : List Char :=
  (row.take (x2 + 1)).drop x1

def subgridFromPoints (g : CharGrid) (s e : Point) : CharGrid :=
  (List.range g.length).filterMap
    (fun y => if y ≤ s.y ∧ e.y ≤ y then some (sliceRow (g.getD y []) s.x e.x) else none)

def move (ex ey : Nat) : Nat → Nat → Nat → List Point → List (List Point)
  | 0, _, _, _ => []
  | fuel + 1, x, y, rp =>
    let rp' := rp ++ [⟨x, y⟩]
    let p1 := if x < ex then move ex ey fuel (x + 1) y rp' else []
    let p2 := if ey < y then move ex ey fuel x (y - 1) rp' else []
    let p3 := if x < ex ∧ ey < y then move ex ey fuel (x + 1) (y - 1) rp' else []
    if p1 = [] ∧ p2 = [] ∧ p3 = [] then [rp'] else p1 ++ p2 ++ p3

def subPaths (sub : CharGrid) : Option (List (List Point)) :=
  match pointsOf sub with
  | [s, e] => some (move e.x e.y (e.x + s.y + 1) s.x s.y [])
  | _ => none

def subgridPathsLen (g : CharGrid) (a b : Point) : Option Nat :=
  (subPaths (subgridFromPoints g a b)).map List.length

def prodPaths (g : CharGrid) : List (Point × Point) → Option Nat
  | [] => some 1
  | (a, b) :: rest =>
    match subgridPathsLen g a b with
    | none => none
    | some k => (prodPaths g rest).map (fun m => k * m)

inductive CountResult
  | count : Nat → CountResult
  | invalid
  | error
deriving DecidableEq

def pathsCount (g : CharGrid) : CountResult :=
  if (pointsOf g).length = 0 then .count 0
  else if (pointsOf g).length = 1 then .count 1
  else
    match isPossible g with
    | some true =>
      match prodPaths g ((pointsOf g).zip (pointsOf g).tail) with
      | some n => .count n
      | none => .error
    | some false => .invalid
    | none => .error

/-- The Delannoy numbers, written with `Nat.rec` so that they compute by
kernel reduction: D(0,n) = D(m,0) = 1 and
D(m+1,n+1) = D(m,n+1) + D(m+1,n) + D(m,n). -/
def delannoy (m : Nat) : Nat → Nat :=
  Nat.rec (motive := fun _ => Nat → Nat)
    (fun _ => 1)
    (fun _ prev n =>
      Nat.rec (motive := fun _ => Nat) 1 (fun k pk => prev (k + 1) + pk + prev k) n)
    m

/-- The row/column exclusivity test as the specification words it: after
removing column x and row y, some remaining column still holds a marker and
some remaining row still holds a marker (a mix). Stated here only to compare
the specification's reading against `mutuallyExclusiveRowCol` above. -/
def specMixRemains (g : CharGrid) (x y : Nat) : Bool :=
  (removeAt (colsOf g) x).any (fun c => c.contains 'X') &&
  (removeAt g y).any (fun r => r.contains 'X')

/-- Concrete grid of end-to-end scenario 2: rows ["X..", ".X.", "..X"]. -/
def gridC1 : CharGrid := [['X', '.', '.'], ['.', 'X', '.'], ['.', '.', 'X']]

/-- Concrete grid showing the exclusivity slip: rows [".X", "XX"]. -/
def gridC2 : CharGrid := [['.', 'X'], ['X', 'X']]

/-- Concrete grid of end-to-end scenario 1: rows ["..X", ".X.", "X.."]. -/
def gridC6 : CharGrid := [['.', '.', 'X'], ['.', 'X', '.'], ['X', '.', '.']]

/-- The strict scan order of `Grid.__init__`: q is discovered after p when q is
in a lower-index (later-scanned) row, or in the same row further right. -/
def scanLt (p q : Point) : Prop := q.y < p.y ∨ (q.y = p.y ∧ p.x < q.x)

/-- The staircase dominance order: q is reachable from p by the monotone
advance (x never decreases, y never increases). -/
def domLe (p q : Point) : Prop := p.x ≤ q.x ∧ q.y ≤ p.y

theorem mem_rowMarkers {g : CharGrid} {y : Nat} {p : Point} :
    p ∈ rowMarkers g y ↔ p.y = y ∧ p.x < width g ∧ cell g p.x y = 'X' := by
  unfold rowMarkers
  simp only [List.mem_filterMap, List.mem_range]
  constructor
  · rintro ⟨x, hx, hfx⟩
    split at hfx
    · next hc =>
      obtain rfl : (⟨x, y⟩ : Point) = p := by injection hfx
      exact ⟨rfl, hx, hc⟩
    · exact absurd hfx (by simp)
  · rintro ⟨hy, hx, hc⟩
    refine ⟨p.x, hx, ?_⟩
    rw [if_pos hc]
    subst hy
    rfl

theorem mem_pointsOf {g : CharGrid} {p : Point} :
    p ∈ pointsOf g ↔ p.y < g.length ∧ p.x < width g ∧ cell g p.x p.y = 'X' := by
  unfold pointsOf
  simp only [List.mem_flatMap, List.mem_reverse, List.mem_range]
  constructor
  · rintro ⟨y, hy, hp⟩
    obtain ⟨hpy, hx, hc⟩ := mem_rowMarkers.mp hp
    subst hpy
    exact ⟨hy, hx, hc⟩
  · rintro ⟨hy, hx, hc⟩
    exact ⟨p.y, hy, mem_rowMarkers.mpr ⟨rfl, hx, hc⟩⟩

theorem pointsOf_sorted (g : CharGrid) : (pointsOf g).Pairwise scanLt := by
  unfold pointsOf
  rw [List.pairwise_flatMap]
  constructor
  · intro y _
    unfold rowMarkers
    rw [List.pairwise_filterMap]
    refine (List.pairwise_lt_range _).imp ?_
    intro a b hab p hp q hq
    split at hp
    · obtain rfl : (⟨a, y⟩ : Point) = p := by simpa [Option.mem_def, eq_comm] using hp
      split at hq
      · obtain rfl : (⟨b, y⟩ : Point) = q := by simpa [Option.mem_def, eq_comm] using hq
        exact Or.inr ⟨rfl, hab⟩
      · simp at hq
    · simp at hp
  · rw [List.pairwise_reverse]
    refine (List.pairwise_lt_range _).imp ?_
    intro a b hab p hp q hq
    obtain ⟨hpy, -, -⟩ := mem_rowMarkers.mp hq
    obtain ⟨hqy, -, -⟩ := mem_rowMarkers.mp hp
    exact Or.inl (by omega)

theorem scanLt_irrefl (p : Point) : ¬scanLt p p := by
  unfold scanLt; omega

theorem pointsOf_nodup (g : CharGrid) : (pointsOf g).Nodup :=
  (pointsOf_sorted g).imp (fun {a b} h => by
    intro hab; subst hab; exact scanLt_irrefl _ h) |>.imp (fun {a b} h => h)

theorem colsOf_mem_length {g : CharGrid} {c : List Char} (hc : c ∈ colsOf g) :
    c.length = g.length := by
  obtain ⟨i, -, rfl⟩ := List.mem_map.mp hc
  exact List.length_map _ _

theorem removeAt_subset {l : List (List Char)} {i : Nat} {c : List Char}
    (hc : c ∈ removeAt l i) : c ∈ l := by
  rcases List.mem_append.mp hc with h | h
  · exact List.mem_of_mem_take h
  · exact List.mem_of_mem_drop h

/-- The Python membership test `"X" in cols` compares whole column strings with
the one-character string "X", so the conjunction in
`_mutually_exclusive_row_col` can never hold at an in-range row index: the
check always passes. -/
theorem mutuallyExclusiveRowCol_true {g : CharGrid} {x y : Nat}
    (hy : y < g.length) : mutuallyExclusiveRowCol g x y = true := by
  unfold mutuallyExclusiveRowCol
  rw [Bool.not_eq_true', Bool.and_eq_false_iff]
  by_cases hc : (removeAt (colsOf g) x).contains ['X'] = true
  · right
    rw [Bool.eq_false_iff]
    intro hr
    have hmemc : (['X'] : List Char) ∈ removeAt (colsOf g) x := List.elem_iff.mp hc
    have hlen : g.length = 1 := by
      have := colsOf_mem_length (removeAt_subset hmemc)
      simpa using this.symm
    have hy0 : y = 0 := by omega
    have hnil : removeAt g y = [] := by
      subst hy0
      unfold removeAt
      rw [List.take_zero, List.drop_eq_nil_of_le (by omega), List.nil_append]
    rw [hnil] at hr
    exact absurd (List.elem_iff.mp hr) (List.not_mem_nil _)
  · exact Or.inl (Bool.eq_false_iff.mpr (fun h => hc h))

theorem domLe_refl (p : Point) : domLe p p := ⟨le_refl _, le_refl _⟩

theorem argminFirst_mem {f : Point → Int} {l : List Point} {q : Point}
    (h : argminFirst f l = some q) : q ∈ l := by
  induction l with
  | nil => simp [argminFirst] at h
  | cons p ps ih =>
    rw [argminFirst] at h
    split at h
    · cases h
      exact List.mem_cons_self _ _
    · next r heq =>
      split at h
      · cases h
        exact List.mem_cons_self _ _
      · cases h
        exact List.mem_cons_of_mem _ (ih heq)

theorem getNearest_mem {points : List Point} {x y : Nat} {n : Point}
    (h : getNearest points x y = some n) :
    n ∈ points ∧ x ≤ n.x ∧ n.y ≤ y ∧ ¬(n.x = x ∧ n.y = y) := by
  have hm := List.mem_filter.mp (argminFirst_mem h)
  refine ⟨hm.1, ?_, ?_, ?_⟩ <;>
    · have hb := hm.2
      simp only [Bool.and_eq_true, Bool.not_eq_true', Bool.and_eq_false_iff,
        decide_eq_true_eq, decide_eq_false_iff_not] at hb
      tauto

theorem nothingBefore_iff {points visited : List Point} {x y : Nat} :
    nothingBefore points visited x y = true ↔
      ∀ p ∈ points, p ∉ visited → x ≤ p.x ∧ p.y ≤ y := by
  unfold nothingBefore
  rw [List.all_eq_true]
  constructor
  · intro h p hp hpv
    have hb := h p hp
    simp only [Bool.or_eq_true, Bool.and_eq_true, decide_eq_true_eq] at hb
    rcases hb with h1 | h2
    · exact absurd h1 hpv
    · exact h2
  · intro h p hp
    simp only [Bool.or_eq_true, Bool.and_eq_true, decide_eq_true_eq]
    by_cases hv : p ∈ visited
    · exact Or.inl hv
    · exact Or.inr (h p hp hv)

theorem unvisitedCount_eq_zero {points visited : List Point}
    (h : unvisitedCount points visited = 0) : ∀ p ∈ points, p ∈ visited := by
  unfold unvisitedCount at h
  rw [List.length_eq_zero] at h
  intro p hp
  by_contra hpv
  have hmem : p ∈ points.dedup.filter (fun p => !(decide (p ∈ visited))) :=
    List.mem_filter.mpr ⟨List.mem_dedup.mpr hp, by simp [hpv]⟩
  rw [h] at hmem
  exact List.not_mem_nil _ hmem

theorem unvisitedCount_insert_lt {points visited : List Point} {n : Point}
    (hn : n ∈ points) (hnv : n ∉ visited) :
    unvisitedCount points (visited.insert n) < unvisitedCount points visited := by
  unfold unvisitedCount
  have hfil : points.dedup.filter (fun p => !(decide (p ∈ visited.insert n)))
      = (points.dedup.filter (fun p => !(decide (p ∈ visited)))).filter
          (fun p => !(decide (p = n))) := by
    rw [List.filter_filter]
    apply List.filter_congr
    intro p _
    by_cases h1 : p = n
    · subst h1
      simp [List.mem_insert_iff]
    · by_cases h2 : p ∈ visited <;> simp [List.mem_insert_iff, h1, h2]
  rw [hfil]
  exact List.length_filter_lt_length_iff_exists.mpr
    ⟨n, List.mem_filter.mpr ⟨List.mem_dedup.mpr hn, by simp [hnv]⟩, by simp⟩

/-- Along the walk every candidate returned by `_get_nearest` is unvisited:
visited markers lie weakly up-left of the current marker, and the candidate
filter excludes them. -/
theorem nearest_not_visited {visited : List Point} {x y : Nat} {n : Point}
    (hinv : ∀ q ∈ visited, domLe q ⟨x, y⟩)
    (hnx : x ≤ n.x) (hny : n.y ≤ y) (hne : ¬(n.x = x ∧ n.y = y)) :
    n ∉ visited.insert ⟨x, y⟩ := by
  rw [List.mem_insert_iff]
  rintro (rfl | hv)
  · exact hne ⟨rfl, rfl⟩
  · have hd := hinv n hv
    exact hne ⟨le_antisymm hd.1 hnx, le_antisymm hny hd.2⟩

/-- The walk never reaches the `raise RuntimeError` branch of
`_did_miss_points`, whatever the fuel: a candidate existing while every
marker is visited is impossible. -/
theorem walk_no_logicError {g : CharGrid} :
    ∀ (fuel : Nat) (visited : List Point) (x y : Nat),
      (⟨x, y⟩ : Point) ∈ pointsOf g →
      (∀ q ∈ visited, domLe q ⟨x, y⟩) →
      didMissPoints g (pointsOf g) fuel visited x y ≠ .logicError := by
  intro fuel
  induction fuel with
  | zero =>
    intro visited x y _ _
    simp [didMissPoints]
  | succ fuel ih =>
    intro visited x y hmem hinv hcon
    rw [didMissPoints] at hcon
    cases hng : (nothingBefore (pointsOf g) (visited.insert ⟨x, y⟩) x y &&
        mutuallyExclusiveRowCol g x y) with
    | false =>
      rw [hng] at hcon
      simp at hcon
    | true =>
      rw [hng, if_neg (by simp)] at hcon
      split at hcon
      · split at hcon <;> simp at hcon
      · next n hN =>
        obtain ⟨hnp, hnx, hny, hne⟩ := getNearest_mem hN
        have hnv' : n ∉ visited.insert ⟨x, y⟩ := nearest_not_visited hinv hnx hny hne
        by_cases hcnt : 0 < unvisitedCount (pointsOf g) (visited.insert ⟨x, y⟩)
        · rw [if_pos hcnt] at hcon
          refine ih _ n.x n.y (by exact hnp) ?_ hcon
          intro q hq
          rcases List.mem_insert_iff.mp hq with rfl | hqv
          · exact ⟨hnx, hny⟩
          · have hd := hinv q hqv
            exact ⟨le_trans hd.1 hnx, le_trans hny hd.2⟩
        · exact hnv' (unvisitedCount_eq_zero (by omega) n hnp)

/-- With fuel exceeding the number of unvisited markers the walk finishes with
one of the two ordinary results. -/
theorem walk_result_or {g : CharGrid} :
    ∀ (fuel : Nat) (visited : List Point) (x y : Nat),
      (⟨x, y⟩ : Point) ∈ pointsOf g →
      (∀ q ∈ visited, domLe q ⟨x, y⟩) →
      unvisitedCount (pointsOf g) (visited.insert ⟨x, y⟩) < fuel →
      (didMissPoints g (pointsOf g) fuel visited x y = .missed ∨
       didMissPoints g (pointsOf g) fuel visited x y = .completed) := by
  intro fuel
  induction fuel with
  | zero =>
    intro visited x y _ _ hfuel
    omega
  | succ fuel ih =>
    intro visited x y hmem hinv hfuel
    rw [didMissPoints]
    cases hng : (nothingBefore (pointsOf g) (visited.insert ⟨x, y⟩) x y &&
        mutuallyExclusiveRowCol g x y) with
    | false =>
      simp
    | true =>
      rw [if_neg (by simp)]
      split
      · split
        · exact Or.inl rfl
        · exact Or.inr rfl
      · next n hN =>
        obtain ⟨hnp, hnx, hny, hne⟩ := getNearest_mem hN
        have hnv' : n ∉ visited.insert ⟨x, y⟩ := nearest_not_visited hinv hnx hny hne
        by_cases hcnt : 0 < unvisitedCount (pointsOf g) (visited.insert ⟨x, y⟩)
        · rw [if_pos hcnt]
          refine ih _ n.x n.y (by exact hnp) ?_ ?_
          · intro q hq
            rcases List.mem_insert_iff.mp hq with rfl | hqv
            · exact ⟨hnx, hny⟩
            · have hd := hinv q hqv
              exact ⟨le_trans hd.1 hnx, le_trans hny hd.2⟩
          · have hlt : unvisitedCount (pointsOf g)
                  ((visited.insert ⟨x, y⟩).insert ⟨n.x, n.y⟩) <
                unvisitedCount (pointsOf g) (visited.insert ⟨x, y⟩) :=
              unvisitedCount_insert_lt hnp hnv'
            omega
        · exfalso
          exact hnv' (unvisitedCount_eq_zero (by omega) n hnp)

/-- If the walk from (x, y) completes then every marker still unvisited after
this step lies weakly down-right of (x, y), and any two such markers are
comparable in the dominance order. -/
theorem walk_chain {g : CharGrid} :
    ∀ (fuel : Nat) (visited : List Point) (x y : Nat),
      didMissPoints g (pointsOf g) fuel visited x y = .completed →
      (∀ p ∈ pointsOf g, p ∉ visited.insert ⟨x, y⟩ → domLe ⟨x, y⟩ p) ∧
      (∀ p ∈ pointsOf g, ∀ q ∈ pointsOf g, p ∉ visited.insert ⟨x, y⟩ →
        q ∉ visited.insert ⟨x, y⟩ → domLe p q ∨ domLe q p) := by
  intro fuel
  induction fuel with
  | zero =>
    intro visited x y h
    simp [didMissPoints] at h
  | succ fuel ih =>
    intro visited x y h
    rw [didMissPoints] at h
    cases hng : (nothingBefore (pointsOf g) (visited.insert ⟨x, y⟩) x y &&
        mutuallyExclusiveRowCol g x y) with
    | false =>
      rw [hng] at h
      simp at h
    | true =>
      rw [hng, if_neg (by simp)] at h
      have hnb : nothingBefore (pointsOf g) (visited.insert ⟨x, y⟩) x y = true := by
        simp only [Bool.and_eq_true] at hng
        exact hng.1
      have hdom0 : ∀ p ∈ pointsOf g, p ∉ visited.insert ⟨x, y⟩ → domLe ⟨x, y⟩ p :=
        fun p hp hpv => nothingBefore_iff.mp hnb p hp hpv
      refine ⟨hdom0, ?_⟩
      split at h
      · by_cases hcnt : 0 < unvisitedCount (pointsOf g) (visited.insert ⟨x, y⟩)
        · rw [if_pos hcnt] at h
          simp at h
        · intro p hp q hq hpv hqv
          exfalso
          exact hpv (unvisitedCount_eq_zero (by omega) p hp)
      · next n hN =>
        by_cases hcnt : 0 < unvisitedCount (pointsOf g) (visited.insert ⟨x, y⟩)
        · rw [if_pos hcnt] at h
          obtain ⟨ih1, ih2⟩ := ih _ _ _ h
          intro p hp q hq hpv hqv
          by_cases hpn : p = n
          · subst hpn
            by_cases hqn : q = p
            · subst hqn
              exact Or.inl (domLe_refl _)
            · have hq' : q ∉ (visited.insert ⟨x, y⟩).insert ⟨p.x, p.y⟩ := by
                rw [List.mem_insert_iff]
                rintro (h' | h')
                · exact hqn (by rw [h'])
                · exact hqv h'
              exact Or.inl (ih1 q hq hq')
          · by_cases hqn : q = n
            · subst hqn
              have hp' : p ∉ (visited.insert ⟨x, y⟩).insert ⟨q.x, q.y⟩ := by
                rw [List.mem_insert_iff]
                rintro (h' | h')
                · exact hpn (by rw [h'])
                · exact hpv h'
              exact Or.inr (ih1 p hp hp')
            · have hp' : p ∉ (visited.insert ⟨x, y⟩).insert ⟨n.x, n.y⟩ := by
                rw [List.mem_insert_iff]
                rintro (h' | h')
                · exact hpn (by rw [h'])
                · exact hpv h'
              have hq' : q ∉ (visited.insert ⟨x, y⟩).insert ⟨n.x, n.y⟩ := by
                rw [List.mem_insert_iff]
                rintro (h' | h')
                · exact hqn (by rw [h'])
                · exact hqv h'
              exact ih2 p hp q hq hp' hq'
        · rw [if_neg hcnt] at h
          simp at h

theorem unvisitedCount_le_dedup (points visited : List Point) :
    unvisitedCount points visited ≤ points.dedup.length :=
  List.length_filter_le _ _

theorem isPossible_true_iff {g : CharGrid} {p : Point} {rest : List Point}
    (hpts : pointsOf g = p :: rest) :
    isPossible g = some true ↔
      didMissPoints g (pointsOf g) ((pointsOf g).dedup.length + 1) [] p.x p.y
        = .completed := by
  unfold isPossible
  rw [hpts]
  rcases h : didMissPoints g (p :: rest) ((p :: rest).dedup.length + 1) [] p.x p.y
    with _ | _ | _ | _ <;> simp [h]

theorem isPossible_false_iff {g : CharGrid} {p : Point} {rest : List Point}
    (hpts : pointsOf g = p :: rest) :
    isPossible g = some false ↔
      didMissPoints g (pointsOf g) ((pointsOf g).dedup.length + 1) [] p.x p.y
        = .missed := by
  unfold isPossible
  rw [hpts]
  rcases h : didMissPoints g (p :: rest) ((p :: rest).dedup.length + 1) [] p.x p.y
    with _ | _ | _ | _ <;> simp [h]

theorem isPossible_total {g : CharGrid} {p : Point} {rest : List Point}
    (hpts : pointsOf g = p :: rest) :
    isPossible g = some false ∨ isPossible g = some true := by
  have hmem : p ∈ pointsOf g := by
    rw [hpts]
    exact List.mem_cons_self _ _
  have hbound : unvisitedCount (pointsOf g) (([] : List Point).insert ⟨p.x, p.y⟩)
      < (pointsOf g).dedup.length + 1 := by
    have := unvisitedCount_le_dedup (pointsOf g) (([] : List Point).insert ⟨p.x, p.y⟩)
    omega
  rcases walk_result_or ((pointsOf g).dedup.length + 1) [] p.x p.y (by exact hmem)
      (by intro q hq; simp at hq) hbound with h | h
  · exact Or.inl ((isPossible_false_iff hpts).mpr h)
  · exact Or.inr ((isPossible_true_iff hpts).mpr h)

/-- A grid the walk accepts has its scanned marker list linearly ordered by
dominance: each marker lies weakly down-right of all markers scanned before
it. -/
theorem points_pairwise_domLe {g : CharGrid} (h : isPossible g = some true) :
    (pointsOf g).Pairwise domLe := by
  rcases hpts : pointsOf g with _ | ⟨p, rest⟩
  · exact List.Pairwise.nil
  · have hw : didMissPoints g (pointsOf g) ((pointsOf g).dedup.length + 1) [] p.x p.y
        = .completed := (isPossible_true_iff hpts).mp h
    rw [← hpts]
    obtain ⟨h1, h2⟩ := walk_chain _ [] p.x p.y hw
    have hinsert : ∀ c : Point, c ∈ ([] : List Point).insert ⟨p.x, p.y⟩ ↔ c = p := by
      intro c
      rw [List.mem_insert_iff]
      constructor
      · rintro (h' | h')
        · exact h'
        · simp at h'
      · intro h'
        exact Or.inl h'
    have hcomp : ∀ a ∈ pointsOf g, ∀ b ∈ pointsOf g, domLe a b ∨ domLe b a := by
      intro a ha b hb
      by_cases hap : a = p
      · by_cases hbp : b = p
        · subst hap
          subst hbp
          exact Or.inl (domLe_refl _)
        · subst hap
          exact Or.inl (h1 b hb (fun hc => hbp ((hinsert b).mp hc)))
      · by_cases hbp : b = p
        · subst hbp
          exact Or.inr (h1 a ha (fun hc => hap ((hinsert a).mp hc)))
        · exact h2 a ha b hb (fun hc => hap ((hinsert a).mp hc))
            (fun hc => hbp ((hinsert b).mp hc))
    have hpair := List.pairwise_of_forall_mem_list hcomp
    have hsorted := pointsOf_sorted g
    refine (hsorted.and hpair).imp ?_
    rintro a b ⟨hlt, hc⟩
    rcases hc with hd | hd
    · exact hd
    · unfold scanLt at hlt
      unfold domLe at hd ⊢
      constructor <;> omega

/-- On a single-marker grid the walk completes in one step: the only marker is
visited immediately, no candidate remains and no marker is unvisited. -/
theorem walk_single {g : CharGrid} {p : Point} (hpts : pointsOf g = [p])
    (fuel : Nat) :
    didMissPoints g (pointsOf g) (fuel + 1) [] p.x p.y = .completed := by
  have hmem : p ∈ pointsOf g := by
    rw [hpts]
    exact List.mem_cons_self _ _
  have hpy : p.y < g.length := (mem_pointsOf.mp hmem).1
  have hnb : nothingBefore (pointsOf g) [(⟨p.x, p.y⟩ : Point)] p.x p.y
      = true := by
    apply nothingBefore_iff.mpr
    intro q hq hqv
    exfalso
    apply hqv
    rw [hpts] at hq
    rcases List.mem_cons.mp hq with rfl | h'
    · exact List.mem_cons_self _ _
    · simp at h'
  have hmux : mutuallyExclusiveRowCol g p.x p.y = true := mutuallyExclusiveRowCol_true hpy
  have hvp : validPoints (pointsOf g) p.x p.y = [] := by
    rw [hpts]
    unfold validPoints
    simp
  have hN : getNearest (pointsOf g) p.x p.y = none := by
    unfold getNearest
    rw [hvp]
    rfl
  have hcnt : unvisitedCount (pointsOf g) [(⟨p.x, p.y⟩ : Point)] = 0 := by
    unfold unvisitedCount
    rw [List.length_eq_zero]
    apply List.filter_eq_nil_iff.mpr
    intro q hq
    have hq' : q ∈ pointsOf g := List.mem_dedup.mp hq
    rw [hpts] at hq'
    rcases List.mem_cons.mp hq' with rfl | h'
    · simp [List.mem_insert_iff]
    · simp at h'
  rw [didMissPoints]
  simp [hnb, hmux, hN, hcnt]

/-- C5: a well-formed grid with exactly one marker is reported valid
(`is_possible` is true) and its path count is exactly 1. -/
theorem c5_single_marker (g : CharGrid) (hwf : wfGrid g)
    (hone : (pointsOf g).length = 1) :
    isPossible g = some true ∧ pathsCount g = .count 1 := by
  obtain ⟨p, hpts⟩ := List.length_eq_one.mp hone
  constructor
  · exact (isPossible_true_iff hpts).mpr (walk_single hpts _)
  · unfold pathsCount
    simp [hone]

/-- Witness for C5 at the one-by-one grid ["X"]. -/
theorem c5_single_marker_witness :
    wfGrid [['X']] ∧ (pointsOf [['X']]).length = 1 ∧
      (isPossible [['X']] = some true ∧ pathsCount [['X']] = .count 1) :=
  ⟨by decide, by decide, c5_single_marker [['X']] (by decide) (by decide)⟩

/-- C9: on a well-formed grid with at least one marker the validity walk
terminates within a recursion depth equal to the number of markers: run with
that much fuel it never exhausts it. -/
theorem c9_walk_terminates (g : CharGrid) (p : Point) (rest : List Point)
    (hwf : wfGrid g) (hpts : pointsOf g = p :: rest) :
    didMissPoints g (pointsOf g) (pointsOf g).length [] p.x p.y ≠ .outOfFuel := by
  have hmem : p ∈ pointsOf g := by
    rw [hpts]
    exact List.mem_cons_self _ _
  have hpm : p ∈ ([] : List Point).insert ⟨p.x, p.y⟩ :=
    List.mem_insert_iff.mpr (Or.inl rfl)
  have hstrict : unvisitedCount (pointsOf g) (([] : List Point).insert ⟨p.x, p.y⟩)
      < (pointsOf g).dedup.length := by
    unfold unvisitedCount
    exact List.length_filter_lt_length_iff_exists.mpr
      ⟨p, List.mem_dedup.mpr hmem, by simp [hpm]⟩
  have hdlen : (pointsOf g).dedup.length ≤ (pointsOf g).length :=
    (List.dedup_sublist _).length_le
  rcases walk_result_or (pointsOf g).length [] p.x p.y (by exact hmem)
      (by intro q hq; simp at hq) (by omega) with h | h <;> rw [h] <;> simp

/-- Witness for C9 at the 3-by-3 staircase grid. -/
theorem c9_walk_terminates_witness :
    wfGrid gridC6 ∧ pointsOf gridC6 = [⟨0, 2⟩, ⟨1, 1⟩, ⟨2, 0⟩] ∧
      didMissPoints gridC6 (pointsOf gridC6) (pointsOf gridC6).length [] 0 2
        ≠ .outOfFuel :=
  ⟨by decide, by decide,
    c9_walk_terminates gridC6 ⟨0, 2⟩ [⟨1, 1⟩, ⟨2, 0⟩] (by decide) (by decide)⟩

/-- C10: on a well-formed grid with at least one marker the validity walk
never reaches the internal "error in my logic" RuntimeError branch, whatever
fuel it is given: visited markers always fail the candidate filter, so once
every marker is visited the nearest-marker search returns none. -/
theorem c10_no_logic_error (g : CharGrid) (p : Point) (rest : List Point)
    (hwf : wfGrid g) (hpts : pointsOf g = p :: rest) (fuel : Nat) :
    didMissPoints g (pointsOf g) fuel [] p.x p.y ≠ .logicError :=
  walk_no_logicError fuel [] p.x p.y
    (by rw [hpts]; exact List.mem_cons_self _ _)
    (by intro q hq; simp at hq)

/-- Witness for C10 at the 3-by-3 staircase grid with the fuel `is_possible`
uses. -/
theorem c10_no_logic_error_witness :
    wfGrid gridC6 ∧ pointsOf gridC6 = [⟨0, 2⟩, ⟨1, 1⟩, ⟨2, 0⟩] ∧
      didMissPoints gridC6 (pointsOf gridC6) 4 [] 0 2 ≠ .logicError :=
  ⟨by decide, by decide,
    c10_no_logic_error gridC6 ⟨0, 2⟩ [⟨1, 1⟩, ⟨2, 0⟩] (by decide) (by decide) 4⟩

/-- C1 (counterexample): for the grid with rows ["X..", ".X.", "..X"] the
code reports the layout invalid with the None path sentinel, so the claim
"valid and path count 9" is false: the scan starts at the bottom-right marker
(2,2) and the remaining markers lie strictly left of it, failing the no-skip
check at the very first step. -/
theorem c1_reversed_staircase_counterexample :
    ¬(isPossible gridC1 = some true ∧ pathsCount gridC1 = .count 9) := by decide

/-- C1 (amended): for the grid with rows ["X..", ".X.", "..X"] the validity
check reports the layout invalid and the end-to-end result is the
distinguished invalid sentinel, not a count. -/
theorem c1_reversed_staircase :
    isPossible gridC1 = some false ∧ pathsCount gridC1 = .invalid := by decide

/-- C2 (evaluation at the failing input [".X", "XX"]): at the first walk step
(marker (0,1)) removing row 1 and column 0 leaves a marker in the remaining
row and in the remaining column - the mix the claim says must be rejected -
yet `_mutually_exclusive_row_col` passes (its `"X" in cols` membership test
compares whole row/column strings against "X") and the grid is reported
valid with path count 1. -/
theorem c2_exclusivity_code_bug :
    pointsOf gridC2 = [⟨0, 1⟩, ⟨1, 1⟩, ⟨1, 0⟩] ∧
      specMixRemains gridC2 0 1 = true ∧
      mutuallyExclusiveRowCol gridC2 0 1 = true ∧
      isPossible gridC2 = some true ∧ pathsCount gridC2 = .count 1 := by decide

/-- C3 (counterexample): at the first step of the walk on ["X..", ".X.",
"..X"] (current marker (2,2)) no unvisited marker p satisfies p.x ≥ 2,
p.y ≤ 2, p ≠ (2,2), while two markers remain unvisited - and the walk returns
the ordinary recoverable `.missed` (invalid) outcome there, not the fatal
logic-error one the claim announces. -/
theorem c3_counterexample :
    (∀ p ∈ pointsOf gridC1, p ∉ ([] : List Point).insert ⟨2, 2⟩ →
        ¬(2 ≤ p.x ∧ p.y ≤ 2 ∧ p ≠ ⟨2, 2⟩)) ∧
      0 < unvisitedCount (pointsOf gridC1) (([] : List Point).insert ⟨2, 2⟩) ∧
      didMissPoints gridC1 (pointsOf gridC1) ((pointsOf gridC1).dedup.length + 1) [] 2 2
        = .missed := by decide

/-- C3 (amended): whenever a step of the walk has no unvisited candidate in
the advance direction while unvisited markers remain, `_did_miss_points`
returns the ordinary recoverable "missed" result (leading to the normal
invalid outcome), never the fatal internal logic error. -/
theorem c3_unreachable_returns_invalid (g : CharGrid) (fuel : Nat)
    (visited : List Point) (x y : Nat)
    (hA : ∀ p ∈ pointsOf g, p ∉ visited.insert ⟨x, y⟩ →
      ¬(x ≤ p.x ∧ p.y ≤ y ∧ p ≠ ⟨x, y⟩))
    (hB : 0 < unvisitedCount (pointsOf g) (visited.insert ⟨x, y⟩)) :
    didMissPoints g (pointsOf g) (fuel + 1) visited x y = .missed := by
  rw [didMissPoints]
  have hnb : nothingBefore (pointsOf g) (visited.insert ⟨x, y⟩) x y = false := by
    by_contra htrue
    rw [Bool.not_eq_false] at htrue
    obtain ⟨p, hp⟩ : ∃ p, p ∈ (pointsOf g).dedup.filter
        (fun p => !(decide (p ∈ visited.insert ⟨x, y⟩))) :=
      List.exists_mem_of_length_pos hB
    have hpmem : p ∈ pointsOf g := List.mem_dedup.mp (List.mem_filter.mp hp).1
    have hpunv : p ∉ visited.insert ⟨x, y⟩ := by
      have hb := (List.mem_filter.mp hp).2
      simpa using hb
    have hdom := nothingBefore_iff.mp htrue p hpmem hpunv
    have hpne : p ≠ ⟨x, y⟩ :=
      fun he => hpunv (he ▸ List.mem_insert_iff.mpr (Or.inl rfl))
    exact hA p hpmem hpunv ⟨hdom.1, hdom.2, hpne⟩
  rw [hnb]
  simp

/-- Witness for C3 (amended) at the first step of the walk on
["X..", ".X.", "..X"]. -/
theorem c3_unreachable_returns_invalid_witness :
    (∀ p ∈ pointsOf gridC1, p ∉ ([] : List Point).insert ⟨2, 2⟩ →
        ¬(2 ≤ p.x ∧ p.y ≤ 2 ∧ p ≠ ⟨2, 2⟩)) ∧
      0 < unvisitedCount (pointsOf gridC1) (([] : List Point).insert ⟨2, 2⟩) ∧
      didMissPoints gridC1 (pointsOf gridC1) 4 [] 2 2 = .missed :=
  ⟨by decide, by decide,
    c3_unreachable_returns_invalid gridC1 3 [] 2 2 (by decide) (by decide)⟩

/-- C6: the grid with rows ["..X", ".X.", "X.."] is reported valid and its
end-to-end path count is 9, the product 3 × 3 of the two consecutive-marker
subgrid counts. -/
theorem c6_staircase_end_to_end :
    isPossible gridC6 = some true ∧ pathsCount gridC6 = .count 9 ∧
      subgridPathsLen gridC6 ⟨0, 2⟩ ⟨1, 1⟩ = some 3 ∧
      subgridPathsLen gridC6 ⟨1, 1⟩ ⟨2, 0⟩ = some 3 := by decide

theorem delannoy_zero_left (n : Nat) : delannoy 0 n = 1 := rfl

theorem delannoy_zero_right (m : Nat) : delannoy m 0 = 1 := by cases m <;> rfl

theorem delannoy_succ_succ (m n : Nat) :
    delannoy (m + 1) (n + 1)
      = delannoy m (n + 1) + delannoy (m + 1) n + delannoy m n := rfl

theorem delannoy_pos (m n : Nat) : 1 ≤ delannoy m n := by
  induction m generalizing n with
  | zero => simp [delannoy_zero_left]
  | succ m ihm =>
    induction n with
    | zero => simp [delannoy_zero_right]
    | succ n ihn =>
      rw [delannoy_succ_succ]
      have := ihm (n + 1)
      omega

/-- The three-direction enumeration of `Subgrid._move` produces exactly the
Delannoy number of paths once the fuel exceeds the rectangle semi-perimeter. -/
theorem move_length (ex ey : Nat) :
    ∀ (fuel x y : Nat) (rp : List Point), x ≤ ex → ey ≤ y →
      ex - x + (y - ey) < fuel →
      (move ex ey fuel x y rp).length = delannoy (ex - x) (y - ey) := by
  intro fuel
  induction fuel with
  | zero =>
    intro x y rp hx hy hf
    omega
  | succ fuel ih =>
    intro x y rp hx hy hf
    by_cases h1 : x < ex <;> by_cases h2 : ey < y
    · obtain ⟨m, hm⟩ : ∃ m, ex - x = m + 1 := ⟨ex - x - 1, by omega⟩
      obtain ⟨k, hk⟩ : ∃ k, y - ey = k + 1 := ⟨y - ey - 1, by omega⟩
      have l1 : (move ex ey fuel (x + 1) y (rp ++ [⟨x, y⟩])).length
          = delannoy m (k + 1) := by
        have h := ih (x + 1) y (rp ++ [⟨x, y⟩]) (by omega) hy (by omega)
        rwa [show ex - (x + 1) = m by omega, hk] at h
      have l2 : (move ex ey fuel x (y - 1) (rp ++ [⟨x, y⟩])).length
          = delannoy (m + 1) k := by
        have h := ih x (y - 1) (rp ++ [⟨x, y⟩]) hx (by omega) (by omega)
        rwa [hm, show y - 1 - ey = k by omega] at h
      have l3 : (move ex ey fuel (x + 1) (y - 1) (rp ++ [⟨x, y⟩])).length
          = delannoy m k := by
        have h := ih (x + 1) (y - 1) (rp ++ [⟨x, y⟩]) (by omega) (by omega) (by omega)
        rwa [show ex - (x + 1) = m by omega, show y - 1 - ey = k by omega] at h
      have hne : move ex ey fuel (x + 1) y (rp ++ [⟨x, y⟩]) ≠ [] := by
        apply List.ne_nil_of_length_pos
        rw [l1]
        have := delannoy_pos m (k + 1)
        omega
      rw [move]
      simp only [if_pos h1, if_pos h2, if_pos (And.intro h1 h2)]
      rw [if_neg (fun hc => hne hc.1)]
      rw [List.length_append, List.length_append, l1, l2, l3, hm, hk,
        delannoy_succ_succ]
    · obtain ⟨m, hm⟩ : ∃ m, ex - x = m + 1 := ⟨ex - x - 1, by omega⟩
      have hk : y - ey = 0 := by omega
      have l1 : (move ex ey fuel (x + 1) y (rp ++ [⟨x, y⟩])).length
          = delannoy m 0 := by
        have h := ih (x + 1) y (rp ++ [⟨x, y⟩]) (by omega) hy (by omega)
        rwa [show ex - (x + 1) = m by omega, hk] at h
      have hne : move ex ey fuel (x + 1) y (rp ++ [⟨x, y⟩]) ≠ [] := by
        apply List.ne_nil_of_length_pos
        rw [l1]
        have := delannoy_pos m 0
        omega
      rw [move]
      simp only [if_pos h1, if_neg h2,
        if_neg (show ¬(x < ex ∧ ey < y) from fun hc => h2 hc.2)]
      rw [if_neg (fun hc => hne hc.1)]
      rw [List.length_append, List.length_append, l1, hm, hk]
      simp [delannoy_zero_right]
    · obtain ⟨k, hk⟩ : ∃ k, y - ey = k + 1 := ⟨y - ey - 1, by omega⟩
      have hm : ex - x = 0 := by omega
      have l2 : (move ex ey fuel x (y - 1) (rp ++ [⟨x, y⟩])).length
          = delannoy 0 k := by
        have h := ih x (y - 1) (rp ++ [⟨x, y⟩]) hx (by omega) (by omega)
        rwa [hm, show y - 1 - ey = k by omega] at h
      have hne : move ex ey fuel x (y - 1) (rp ++ [⟨x, y⟩]) ≠ [] := by
        apply List.ne_nil_of_length_pos
        rw [l2]
        have := delannoy_pos 0 k
        omega
      rw [move]
      simp only [if_neg h1, if_pos h2,
        if_neg (show ¬(x < ex ∧ ey < y) from fun hc => h1 hc.1)]
      rw [if_neg (fun hc => hne hc.2.1)]
      rw [List.length_append, List.length_append, l2, hm, hk]
      simp [delannoy_zero_left]
    · have hm : ex - x = 0 := by omega
      have hk : y - ey = 0 := by omega
      rw [move]
      simp only [if_neg h1, if_neg h2,
        if_neg (show ¬(x < ex ∧ ey < y) from fun hc => h1 hc.1)]
      rw [if_pos ⟨trivial, trivial, trivial⟩, hm, hk]
      simp [delannoy_zero_left]

/-- C4: a 2-marker subgrid whose start and end markers span dx = e.x - s.x
columns and dy = s.y - e.y rows (dx, dy ≥ 0) has its recursive three-direction
enumeration return a list of exactly D(dx, dy) paths, the Delannoy number; in
particular dx = dy = 1 gives exactly 3. -/
theorem c4_delannoy_count (sub : CharGrid) (s e : Point)
    (hpts : pointsOf sub = [s, e]) (hx : s.x ≤ e.x) (hy : e.y ≤ s.y) :
    (subPaths sub).map List.length = some (delannoy (e.x - s.x) (s.y - e.y)) ∧
      delannoy 1 1 = 3 := by
  constructor
  · unfold subPaths
    rw [hpts]
    exact congrArg some (move_length e.x e.y (e.x + s.y + 1) s.x s.y [] hx hy (by omega))
  · decide

/-- Witness for C4 at the 2-by-2 subgrid [".X", "X."]. -/
theorem c4_delannoy_count_witness :
    pointsOf [['.', 'X'], ['X', '.']] = [⟨0, 1⟩, ⟨1, 0⟩] ∧
      (0 : Nat) ≤ 1 ∧ (0 : Nat) ≤ 1 ∧
      ((subPaths [['.', 'X'], ['X', '.']]).map List.length
          = some (delannoy 1 1) ∧ delannoy 1 1 = 3) :=
  ⟨by decide, by decide, by decide,
    c4_delannoy_count [['.', 'X'], ['X', '.']] ⟨0, 1⟩ ⟨1, 0⟩ (by decide)
      (by decide) (by decide)⟩

theorem filterMap_eq_map_of {α β : Type _} {l : List α} {F : α → Option β}
    {f : α → β} (h : ∀ a ∈ l, F a = some (f a)) : l.filterMap F = l.map f := by
  induction l with
  | nil => rfl
  | cons a l ih =>
    rw [List.filterMap_cons, h a (List.mem_cons_self _ _)]
    show f a :: l.filterMap F = f a :: l.map f
    rw [ih (fun b hb => h b (List.mem_cons_of_mem _ hb))]

theorem range_interval_filterMap {α : Type _} (f : Nat → α) {lo hi n : Nat}
    (hlo : lo ≤ hi) (hhi : hi < n) :
    (List.range n).filterMap (fun y => if y ≤ hi ∧ lo ≤ y then some (f y) else none)
      = (List.range' lo (hi + 1 - lo)).map f := by
  have h1 := List.range'_append 0 lo (hi + 1 - lo) 1
  have h2 := List.range'_append 0 (hi + 1) (n - (hi + 1)) 1
  simp only [Nat.zero_add, Nat.one_mul] at h1 h2
  have key : List.range' 0 lo ++ List.range' lo (hi + 1 - lo)
      ++ List.range' (hi + 1) (n - (hi + 1)) = List.range' 0 n := by
    rw [h1]
    have e1 : hi + 1 - lo + lo = hi + 1 := by omega
    rw [e1, h2]
    congr 1
    omega
  rw [List.range_eq_range', ← key, List.filterMap_append, List.filterMap_append]
  have e1 : (List.range' 0 lo).filterMap
      (fun y => if y ≤ hi ∧ lo ≤ y then some (f y) else none) = [] := by
    apply List.filterMap_eq_nil_iff.mpr
    intro a ha
    have hm := List.mem_range'_1.mp ha
    exact if_neg (by omega)
  have e3 : (List.range' (hi + 1) (n - (hi + 1))).filterMap
      (fun y => if y ≤ hi ∧ lo ≤ y then some (f y) else none) = [] := by
    apply List.filterMap_eq_nil_iff.mpr
    intro a ha
    have hm := List.mem_range'_1.mp ha
    exact if_neg (by omega)
  have e2 : (List.range' lo (hi + 1 - lo)).filterMap
      (fun y => if y ≤ hi ∧ lo ≤ y then some (f y) else none)
      = (List.range' lo (hi + 1 - lo)).map f := by
    apply filterMap_eq_map_of
    intro a ha
    have hm := List.mem_range'_1.mp ha
    exact if_pos ⟨by omega, by omega⟩
  rw [e1, e2, e3, List.nil_append, List.append_nil]

theorem filterMap_range_single {β : Type _} (F : Nat → Option β) (k : Nat) (v : β) :
    ∀ n, k < n → (∀ x, x < n → F x = if x = k then some v else none) →
      (List.range n).filterMap F = [v] := by
  intro n
  induction n with
  | zero =>
    intro hk hF
    omega
  | succ n ih =>
    intro hk hF
    rw [List.range_succ, List.filterMap_append]
    by_cases hkn : k = n
    · subst hkn
      have hnil : (List.range k).filterMap F = [] := by
        apply List.filterMap_eq_nil_iff.mpr
        intro a ha
        have hm := List.mem_range.mp ha
        rw [hF a (by omega), if_neg (by omega)]
      rw [hnil, List.nil_append]
      have hFk : F k = some v := by
        rw [hF k (by omega), if_pos rfl]
      simp [List.filterMap_cons, hFk]
    · have hlt : k < n := by omega
      rw [ih hlt (fun x hx => hF x (by omega))]
      have hFn : F n = none := by
        rw [hF n (by omega), if_neg (fun he => hkn he.symm)]
      simp [List.filterMap_cons, hFn]

theorem filterMap_range_double {β : Type _} (F : Nat → Option β) (k₁ k₂ : Nat)
    (v₁ v₂ : β) :
    ∀ n, k₁ < k₂ → k₂ < n →
      (∀ x, x < n → F x = if x = k₁ then some v₁ else if x = k₂ then some v₂ else none) →
      (List.range n).filterMap F = [v₁, v₂] := by
  intro n
  induction n with
  | zero =>
    intro h12 hk hF
    omega
  | succ n ih =>
    intro h12 hk hF
    rw [List.range_succ, List.filterMap_append]
    by_cases hkn : k₂ = n
    · subst hkn
      have hsingle : (List.range k₂).filterMap F = [v₁] := by
        apply filterMap_range_single F k₁ v₁ k₂ (by omega)
        intro x hx
        rw [hF x (by omega)]
        by_cases h1 : x = k₁
        · simp [h1]
        · simp [h1, show x ≠ k₂ by omega]
      rw [hsingle]
      have hFn : F k₂ = some v₂ := by
        rw [hF k₂ (by omega), if_neg (by omega), if_pos rfl]
      simp [List.filterMap_cons, hFn]
    · have hlt : k₂ < n := by omega
      rw [ih h12 hlt (fun x hx => hF x (by omega))]
      have hFn : F n = none := by
        rw [hF n (by omega), if_neg (by omega), if_neg (fun he => hkn he.symm)]
      simp [List.filterMap_cons, hFn]

theorem flatMap_rev_range_one (F : Nat → List Point) (v : Point) :
    ∀ h, 0 < h → (∀ y, y < h → F y = if y = 0 then [v] else []) →
      ((List.range h).reverse).flatMap F = [v] := by
  intro h
  induction h with
  | zero =>
    intro h0 hF
    omega
  | succ m ih =>
    intro h0 hF
    rw [List.range_succ, List.reverse_append]
    simp only [List.reverse_cons, List.reverse_nil, List.nil_append,
      List.singleton_append]
    rw [List.flatMap_cons]
    by_cases hm : m = 0
    · subst hm
      simp [hF 0 (by omega)]
    · rw [hF m (by omega), if_neg hm, List.nil_append]
      exact ih (by omega) (fun y hy => hF y (by omega))

theorem flatMap_rev_range_two (F : Nat → List Point) (u v : Point) (i : Nat) :
    ∀ h, 0 < i → i < h →
      (∀ y, y < h → F y = if y = i then [u] else if y = 0 then [v] else []) →
      ((List.range h).reverse).flatMap F = [u, v] := by
  intro h
  induction h with
  | zero =>
    intro h0 hi hF
    omega
  | succ m ih =>
    intro h0 hi hF
    rw [List.range_succ, List.reverse_append]
    simp only [List.reverse_cons, List.reverse_nil, List.nil_append,
      List.singleton_append]
    rw [List.flatMap_cons]
    by_cases him : i = m
    · subst him
      rw [hF i (by omega), if_pos rfl]
      have hone : ((List.range i).reverse).flatMap F = [v] := by
        apply flatMap_rev_range_one F v i h0
        intro y hy
        rw [hF y (by omega), if_neg (by omega)]
      rw [hone]
      rfl
    · rw [hF m (by omega), if_neg (fun he => him he.symm), if_neg (by omega),
        List.nil_append]
      exact ih h0 (by omega) (fun y hy => hF y (by omega))

theorem point_ext {p q : Point} (hx : p.x = q.x) (hy : p.y = q.y) : p = q := by
  cases p
  cases q
  simp_all

theorem row_length_of_wf {g : CharGrid} (hwf : wfGrid g) {y : Nat}
    (hy : y < g.length) : (g.getD y []).length = width g := by
  have hg : g.getD y [] = g[y] := by
    rw [List.getD_eq_getElem?_getD, List.getElem?_eq_getElem hy]
    rfl
  rw [hg]
  exact hwf.2 _ (List.getElem_mem hy)

theorem sliceRow_length {row : List Char} {x1 x2 : Nat} (h : x2 < row.length) :
    (sliceRow row x1 x2).length = x2 + 1 - x1 := by
  unfold sliceRow
  rw [List.length_drop, List.length_take]
  omega

theorem sliceRow_getD {row : List Char} {x1 x2 i : Nat} (h1 : x1 + i ≤ x2)
    (h2 : x1 + i < row.length) :
    (sliceRow row x1 x2).getD i '.' = row.getD (x1 + i) '.' := by
  unfold sliceRow
  have hlen : i < ((row.take (x2 + 1)).drop x1).length := by
    rw [List.length_drop, List.length_take]
    omega
  rw [List.getD_eq_getElem?_getD, List.getElem?_eq_getElem hlen,
    List.getElem_drop, List.getElem_take,
    List.getD_eq_getElem?_getD, List.getElem?_eq_getElem h2]

/-- Under a valid dominance-ordered pair (a, b) whose rectangle contains no
other marker, the subgrid `Subgrid.from_points` carves between them re-scans
to exactly two markers: the bottom-left one (local (0, a.y - b.y), image of a)
and the top-right one (local (b.x - a.x, 0), image of b), in scan order. -/
theorem subgrid_points {g : CharGrid} {a b : Point} (hwf : wfGrid g)
    (ha : a ∈ pointsOf g) (hb : b ∈ pointsOf g) (hab : a ≠ b)
    (hax : a.x ≤ b.x) (hby : b.y ≤ a.y)
    (hrect : ∀ m ∈ pointsOf g, a.x ≤ m.x → m.x ≤ b.x → b.y ≤ m.y → m.y ≤ a.y →
      m = a ∨ m = b) :
    pointsOf (subgridFromPoints g a b) = [⟨0, a.y - b.y⟩, ⟨b.x - a.x, 0⟩] := by
  obtain ⟨hay, haxw, hac⟩ := mem_pointsOf.mp ha
  obtain ⟨hbyn, hbxw, hbc⟩ := mem_pointsOf.mp hb
  have hsub : subgridFromPoints g a b
      = (List.range' b.y (a.y + 1 - b.y)).map
          (fun y => sliceRow (g.getD y []) a.x b.x) := by
    unfold subgridFromPoints
    exact range_interval_filterMap _ hby hay
  have hlen : (subgridFromPoints g a b).length = a.y + 1 - b.y := by
    rw [hsub, List.length_map, List.length_range']
  have hwidth : width (subgridFromPoints g a b) = b.x + 1 - a.x := by
    rw [hsub]
    obtain ⟨k, hk⟩ : ∃ k, a.y + 1 - b.y = k + 1 := ⟨a.y - b.y, by omega⟩
    rw [hk, List.range'_succ, List.map_cons]
    show (sliceRow (g.getD b.y []) a.x b.x).length = b.x + 1 - a.x
    have hr : (g.getD b.y []).length = width g := row_length_of_wf hwf (by omega)
    exact sliceRow_length (by rw [hr]; exact hbxw)
  have hrowD : ∀ y', y' < a.y + 1 - b.y →
      (subgridFromPoints g a b).getD y' []
        = sliceRow (g.getD (b.y + y') []) a.x b.x := by
    intro y' hy'
    rw [hsub]
    have hylen : y' < ((List.range' b.y (a.y + 1 - b.y)).map
        (fun y => sliceRow (g.getD y []) a.x b.x)).length := by
      rw [List.length_map, List.length_range']
      exact hy'
    rw [List.getD_eq_getElem?_getD, List.getElem?_eq_getElem hylen,
      List.getElem_map, List.getElem_range']
    simp only [Option.getD_some, Nat.one_mul]
  have hcell : ∀ x' y', x' < b.x + 1 - a.x → y' < a.y + 1 - b.y →
      cell (subgridFromPoints g a b) x' y' = cell g (a.x + x') (b.y + y') := by
    intro x' y' hx' hy'
    unfold cell
    rw [hrowD y' hy']
    have hrl : (g.getD (b.y + y') []).length = width g :=
      row_length_of_wf hwf (by omega)
    exact sliceRow_getD (by omega) (by rw [hrl]; omega)
  have hmark : ∀ x' y', x' < b.x + 1 - a.x → y' < a.y + 1 - b.y →
      (cell (subgridFromPoints g a b) x' y' = 'X' ↔
        (x' = 0 ∧ b.y + y' = a.y) ∨ (a.x + x' = b.x ∧ y' = 0)) := by
    intro x' y' hx' hy'
    rw [hcell x' y' hx' hy']
    constructor
    · intro hc
      have hm : (⟨a.x + x', b.y + y'⟩ : Point) ∈ pointsOf g :=
        mem_pointsOf.mpr ⟨show b.y + y' < g.length by omega,
          show a.x + x' < width g by omega, hc⟩
      rcases hrect _ hm (show a.x ≤ a.x + x' by omega) (show a.x + x' ≤ b.x by omega)
          (show b.y ≤ b.y + y' by omega) (show b.y + y' ≤ a.y by omega) with he | he
      · have h1 : a.x + x' = a.x := congrArg Point.x he
        have h2 : b.y + y' = a.y := congrArg Point.y he
        exact Or.inl ⟨by omega, h2⟩
      · have h1 : a.x + x' = b.x := congrArg Point.x he
        have h2 : b.y + y' = b.y := congrArg Point.y he
        exact Or.inr ⟨h1, by omega⟩
    · rintro (⟨h1, h2⟩ | ⟨h1, h2⟩)
      · have he : a.x + x' = a.x := by omega
        rw [he, h2]
        exact hac
      · have he : b.y + y' = b.y := by omega
        rw [h1, he]
        exact hbc
  unfold pointsOf
  rw [hlen]
  by_cases hcase : b.y = a.y
  · -- single row: both markers on local row 0
    have haxlt : a.x < b.x := by
      rcases Nat.lt_or_ge a.x b.x with h | h
      · exact h
      · exact absurd (point_ext (show a.x = b.x by omega)
          (show a.y = b.y by omega)) hab
    have hrow0 : rowMarkers (subgridFromPoints g a b) 0
        = [(⟨0, 0⟩ : Point), ⟨b.x - a.x, 0⟩] := by
      unfold rowMarkers
      rw [hwidth]
      apply filterMap_range_double _ 0 (b.x - a.x) _ _ _ (by omega) (by omega)
      intro x' hx'
      by_cases h0 : x' = 0
      · subst h0
        rw [if_pos ((hmark 0 0 (by omega) (by omega)).mpr (Or.inl ⟨rfl, by omega⟩)),
          if_pos rfl]
      · by_cases hk : x' = b.x - a.x
        · subst hk
          rw [if_pos ((hmark _ 0 (by omega) (by omega)).mpr
              (Or.inr ⟨by omega, rfl⟩)), if_neg h0, if_pos rfl]
        · rw [if_neg, if_neg h0, if_neg hk]
          intro hc
          rcases (hmark x' 0 (by omega) (by omega)).mp hc with ⟨hh, _⟩ | ⟨hh, _⟩
          · exact h0 hh
          · exact hk (by omega)
    have h1 : a.y + 1 - b.y = 1 := by omega
    rw [h1]
    simp only [List.range_succ, List.range_zero, List.nil_append,
      List.reverse_cons, List.reverse_nil, List.flatMap_cons, List.flatMap_nil,
      List.append_nil]
    rw [hrow0]
    have h0 : a.y - b.y = 0 := by omega
    rw [h0]
  · -- two distinct rows
    have hby' : b.y < a.y := by omega
    have htop : rowMarkers (subgridFromPoints g a b) (a.y - b.y)
        = [(⟨0, a.y - b.y⟩ : Point)] := by
      unfold rowMarkers
      rw [hwidth]
      apply filterMap_range_single _ 0 _ _ (by omega)
      intro x' hx'
      by_cases h0 : x' = 0
      · subst h0
        rw [if_pos ((hmark 0 _ (by omega) (by omega)).mpr
            (Or.inl ⟨rfl, by omega⟩)), if_pos rfl]
      · rw [if_neg, if_neg h0]
        intro hc
        rcases (hmark x' _ (by omega) (by omega)).mp hc with ⟨hh, _⟩ | ⟨_, hh⟩
        · exact h0 hh
        · omega
    have hbot : rowMarkers (subgridFromPoints g a b) 0
        = [(⟨b.x - a.x, 0⟩ : Point)] := by
      unfold rowMarkers
      rw [hwidth]
      apply filterMap_range_single _ (b.x - a.x) _ _ (by omega)
      intro x' hx'
      by_cases hk : x' = b.x - a.x
      · subst hk
        rw [if_pos ((hmark _ 0 (by omega) (by omega)).mpr
            (Or.inr ⟨by omega, rfl⟩)), if_pos rfl]
      · rw [if_neg, if_neg hk]
        intro hc
        rcases (hmark x' 0 (by omega) (by omega)).mp hc with ⟨_, hh⟩ | ⟨hh, _⟩
        · omega
        · exact hk (by omega)
    have hmid : ∀ y', y' < a.y + 1 - b.y → y' ≠ 0 → y' ≠ a.y - b.y →
        rowMarkers (subgridFromPoints g a b) y' = [] := by
      intro y' hy' hne0 hnetop
      unfold rowMarkers
      apply List.filterMap_eq_nil_iff.mpr
      intro x' hx'
      rw [if_neg]
      intro hc
      rcases (hmark x' y' (by rw [← hwidth]; exact List.mem_range.mp hx') hy').mp hc
        with ⟨_, hh⟩ | ⟨_, hh⟩
      · exact hnetop (by omega)
      · exact hne0 hh
    apply flatMap_rev_range_two _ _ _ (a.y - b.y) _ (by omega) (by omega)
    intro y' hy'
    by_cases htopc : y' = a.y - b.y
    · subst htopc
      rw [if_pos rfl]
      exact htop
    · rw [if_neg htopc]
      by_cases h0 : y' = 0
      · subst h0
        rw [if_pos rfl]
        exact hbot
      · rw [if_neg h0]
        exact hmid y' hy' h0 htopc

theorem mem_zip_tail_split {l : List Point} {a b : Point}
    (h : (a, b) ∈ l.zip l.tail) : ∃ xs ys, l = xs ++ a :: b :: ys := by
  induction l with
  | nil => simp at h
  | cons p rest ih =>
    cases rest with
    | nil => simp at h
    | cons q rest' =>
      simp only [List.tail_cons, List.zip_cons_cons] at h
      rcases List.mem_cons.mp h with he | hm
      · have h1 : a = p := congrArg Prod.fst he
        have h2 : b = q := congrArg Prod.snd he
        subst h1
        subst h2
        exact ⟨[], rest', rfl⟩
      · obtain ⟨xs, ys, hxy⟩ := ih (by exact hm)
        exact ⟨p :: xs, ys, by rw [List.cons_append, ← hxy]⟩

/-- Any consecutive marker pair of a grid the walk accepts carves to a
subgrid whose own scan finds exactly the two corner markers, in order. -/
theorem valid_pair_subgrid {g : CharGrid} {a b : Point} (hwf : wfGrid g)
    (hpos : isPossible g = some true)
    (hpair : (a, b) ∈ (pointsOf g).zip (pointsOf g).tail) :
    pointsOf (subgridFromPoints g a b) = [⟨0, a.y - b.y⟩, ⟨b.x - a.x, 0⟩] := by
  obtain ⟨xs, ys, hsplit⟩ := mem_zip_tail_split hpair
  have hchain := points_pairwise_domLe hpos
  have hnd := pointsOf_nodup g
  rw [hsplit] at hchain hnd
  rw [List.pairwise_append] at hchain
  obtain ⟨-, hrest_pw, hcross⟩ := hchain
  rw [List.pairwise_cons] at hrest_pw
  obtain ⟨ha_all, hb_pw⟩ := hrest_pw
  rw [List.pairwise_cons] at hb_pw
  obtain ⟨hb_all, -⟩ := hb_pw
  obtain ⟨-, hnd_rest, -⟩ := List.nodup_append.mp hnd
  have hab : a ≠ b := by
    have hcons := List.nodup_cons.mp hnd_rest
    intro he
    exact hcons.1 (he ▸ List.mem_cons_self _ _)
  have hdom : domLe a b := ha_all b (List.mem_cons_self _ _)
  have hamem : a ∈ pointsOf g := by
    rw [hsplit]
    exact List.mem_append.mpr (Or.inr (List.mem_cons_self _ _))
  have hbmem : b ∈ pointsOf g := by
    rw [hsplit]
    exact List.mem_append.mpr (Or.inr (List.mem_cons_of_mem _ (List.mem_cons_self _ _)))
  have hrect : ∀ m ∈ pointsOf g, a.x ≤ m.x → m.x ≤ b.x → b.y ≤ m.y → m.y ≤ a.y →
      m = a ∨ m = b := by
    intro m hm h1 h2 h3 h4
    rw [hsplit] at hm
    rcases List.mem_append.mp hm with hmx | hmr
    · obtain ⟨hd1, hd2⟩ := hcross m hmx a (List.mem_cons_self _ _)
      exact Or.inl (point_ext (by omega) (by omega))
    · rcases List.mem_cons.mp hmr with rfl | hmr'
      · exact Or.inl rfl
      · rcases List.mem_cons.mp hmr' with rfl | hmy
        · exact Or.inr rfl
        · obtain ⟨hd1, hd2⟩ := hb_all m hmy
          exact Or.inr (point_ext (by omega) (by omega))
  exact subgrid_points hwf hamem hbmem hab hdom.1 hdom.2 hrect

/-- C7: on any well-formed grid the validity check accepts, the subgrid carved
between each consecutive marker pair contains exactly 2 markers, so the fatal
exactly-2-markers assertion of the Subgrid constructor never fires while
computing paths_count. -/
theorem c7_subgrid_two_markers (g : CharGrid) (a b : Point) (hwf : wfGrid g)
    (hpos : isPossible g = some true)
    (hpair : (a, b) ∈ (pointsOf g).zip (pointsOf g).tail) :
    (pointsOf (subgridFromPoints g a b)).length = 2 := by
  rw [valid_pair_subgrid hwf hpos hpair]
  rfl

/-- Witness for C7 at the 3-by-3 staircase grid and its first marker pair. -/
theorem c7_subgrid_two_markers_witness :
    wfGrid gridC6 ∧ isPossible gridC6 = some true ∧
      ((⟨0, 2⟩, ⟨1, 1⟩) : Point × Point) ∈ (pointsOf gridC6).zip (pointsOf gridC6).tail ∧
      (pointsOf (subgridFromPoints gridC6 ⟨0, 2⟩ ⟨1, 1⟩)).length = 2 :=
  ⟨by decide, by decide, by decide,
    c7_subgrid_two_markers gridC6 ⟨0, 2⟩ ⟨1, 1⟩ (by decide) (by decide) (by decide)⟩

theorem valid_pair_pathsLen {g : CharGrid} {a b : Point} (hwf : wfGrid g)
    (hpos : isPossible g = some true)
    (hpair : (a, b) ∈ (pointsOf g).zip (pointsOf g).tail) :
    subgridPathsLen g a b = some (delannoy (b.x - a.x) (a.y - b.y)) := by
  unfold subgridPathsLen subPaths
  rw [valid_pair_subgrid hwf hpos hpair]
  exact congrArg some (move_length (b.x - a.x) 0 (b.x - a.x + (a.y - b.y) + 1) 0
    (a.y - b.y) [] (Nat.zero_le _) (Nat.zero_le _) (by omega))

theorem prodPaths_pos {g : CharGrid} :
    ∀ L : List (Point × Point),
      (∀ ab ∈ L, ∃ k, subgridPathsLen g ab.1 ab.2 = some k ∧ 1 ≤ k) →
      ∃ n, prodPaths g L = some n ∧ 1 ≤ n := by
  intro L
  induction L with
  | nil =>
    intro h
    exact ⟨1, rfl, le_refl _⟩
  | cons ab rest ih =>
    intro h
    obtain ⟨a, b⟩ := ab
    obtain ⟨k, hk, hk1⟩ := h (a, b) (List.mem_cons_self _ _)
    obtain ⟨n, hn, hn1⟩ := ih (fun x hx => h x (List.mem_cons_of_mem _ hx))
    refine ⟨k * n, ?_, Nat.mul_pos hk1 hn1⟩
    simp only [prodPaths]
    rw [show subgridPathsLen g a b = some k from hk, hn]
    rfl

/-- C8: on a well-formed grid with at least one marker, the end-to-end core
result is either a path count of at least 1 or the distinguished invalid
sentinel; the invalid outcome is plain data and no exception-like error
result ever surfaces. -/
theorem c8_result_count_or_invalid (g : CharGrid) (hwf : wfGrid g)
    (hne : pointsOf g ≠ []) :
    (∃ n, pathsCount g = .count n ∧ 1 ≤ n) ∨ pathsCount g = .invalid := by
  rcases hpts : pointsOf g with _ | ⟨p, rest⟩
  · exact absurd hpts hne
  have hne0 : ¬(pointsOf g).length = 0 := by
    rw [hpts]
    simp
  by_cases hone : (pointsOf g).length = 1
  · left
    refine ⟨1, ?_, le_refl _⟩
    unfold pathsCount
    rw [if_neg hne0, if_pos hone]
  · rcases isPossible_total hpts with hf | ht
    · right
      unfold pathsCount
      rw [if_neg hne0, if_neg hone, hf]
    · left
      have hall : ∀ ab ∈ (pointsOf g).zip (pointsOf g).tail,
          ∃ k, subgridPathsLen g ab.1 ab.2 = some k ∧ 1 ≤ k := by
        intro ab hab
        obtain ⟨a, b⟩ := ab
        exact ⟨delannoy (b.x - a.x) (a.y - b.y), valid_pair_pathsLen hwf ht hab,
          delannoy_pos _ _⟩
      obtain ⟨n, hn, hn1⟩ := prodPaths_pos _ hall
      refine ⟨n, ?_, hn1⟩
      unfold pathsCount
      rw [if_neg hne0, if_neg hone, ht, hn]

/-- Witness for C8 at the 3-by-3 staircase grid. -/
theorem c8_result_count_or_invalid_witness :
    wfGrid gridC6 ∧ pointsOf gridC6 ≠ [] ∧
      ((∃ n, pathsCount gridC6 = .count n ∧ 1 ≤ n) ∨ pathsCount gridC6 = .invalid) :=
  ⟨by decide, by decide, c8_result_count_or_invalid gridC6 (by decide) (by decide)⟩


end MainPy
